import Mathlib

/-!
Verification of the signal scheduling / automation model of this repository.

The connect/disconnect override machinery is embedded from
`src/node_modules/tone/build/esm/signal/Signal.js` (`connectSignal`,
`disconnectSignal`, the `Signal` constructor).  The parameter automation
engine itself (`Param.js` / `AbstractParam.js`) is not part of the sources,
only its callers and type declarations are, so the event timeline and the
curve evaluator are modelled from the specification (sections 3, 4.1, 4.2
and 4.3 of the design document).

Numbers are embedded as exact values: schedule times are rationals, signal
values are real numbers (the evaluator uses `Real.exp` and real powers for
the transcendental automation curves, which forces the evaluator itself to
be marked noncomputable; every structural operation on timelines and on the
connection state is computable).
-/

/-- Modelled from the spec: the kind of an automation event together with its
kind-specific payload (section 3, `AutomationEvent.type`, `constant`,
`curve`).  `SetTarget` carries the exponential time constant, `CurveEvent`
carries the explicit value array, its duration and a scaling factor. -/
inductive ACurve where
  | SetValue : ACurve
  | LinearRamp : ACurve
  | ExponentialRamp : ACurve
  | SetTarget : (constant : ℚ) → ACurve
  | CurveEvent : (curve : List ℝ) → (duration : ℚ) → (scaling : ℚ) → ACurve

/-- True exactly for `SetTarget` events (these are open-ended and coexist
with another event scheduled at the same instant, section 4.1). -/
def ACurve.isTarget : ACurve → Bool
  | .SetTarget _ => true
  | _ => false

/-- True exactly for the two ramp kinds. -/
def ACurve.isRamp : ACurve → Bool
  | .LinearRamp => true
  | .ExponentialRamp => true
  | _ => false

/-- Modelled from the spec: a time-stamped automation event of one parameter
(section 3, `AutomationEvent`). -/
structure AEvent where
  time : ℚ
  value : ℝ
  kind : ACurve

/-- Modelled from the spec: ordered insertion into the timeline
(section 4.1, `insert`).  The new event is placed after every event with a
strictly earlier time; an existing event at exactly the same time is
replaced by the new one, unless the existing event is an open-ended
`SetTarget`, in which case both are retained with the new event after it. -/
def insertEvent : List AEvent → AEvent → List AEvent
  | [], e => [e]
  | old :: rest, e =>
    if old.time < e.time then old :: insertEvent rest e
    else if e.time < old.time then e :: old :: rest
    else if old.kind.isTarget then old :: insertEvent rest e
    else e :: rest

/-- Modelled from the spec: the timeline ordering invariant (section 3):
events are kept in increasing time order, with equal times only for an
open-ended `SetTarget` followed by the event that was inserted at its
start time (replacement semantics resolve every other collision). -/
def EventsOrdered (evs : List AEvent) : Prop :=
  evs.Pairwise (fun a b => a.time < b.time ∨ (a.time = b.time ∧ a.kind.isTarget = true))

/-- The latest event at or before the query time (section 4.1,
`getEventAt`: the `previous` half of the bracketing pair). -/
def eventBefore (evs : List AEvent) (t : ℚ) : Option AEvent :=
  (evs.filter (fun e => decide (e.time ≤ t))).getLast?

/-- The earliest event strictly after the query time (section 4.1,
`getEventAt`: the `next` half of the bracketing pair). -/
def eventAfter (evs : List AEvent) (t : ℚ) : Option AEvent :=
  (evs.filter (fun e => decide (t < e.time))).head?

/-- The value the previous event's regime starts from: the stored value of
the latest event strictly before it, or the parameter's static initial
value when there is none (used as `v_start` of the `SetTarget` formula,
section 4.2). -/
def vstartOf (initial : ℝ) (evs : List AEvent) (prev : AEvent) : ℝ :=
  match (evs.filter (fun e => decide (e.time < prev.time))).getLast? with
  | none => initial
  | some q => q.value

/-- The interpolation fraction `(t - t0) / (t1 - t0)` clamped into `[0, 1]`
(section 4.2: a query time outside the segment is clamped to the nearer
endpoint). -/
def rampFraction (t0 t1 t : ℚ) : ℚ :=
  max 0 (min 1 ((t - t0) / (t1 - t0)))

/-- Modelled from the spec: sampling of an explicit value curve over its
duration, linear between adjacent samples, scaled by the scaling factor
(section 4.2, `CurveEvent`). -/
noncomputable def sampleCurve (curve : List ℝ) (duration scaling : ℚ) (t0 t : ℚ) : ℝ :=
  match curve with
  | [] => 0
  | c =>
    let pos : ℚ := if duration ≤ 0 then 1 else rampFraction t0 (t0 + duration) t
    let idx : ℚ := pos * ((c.length : ℚ) - 1)
    let i : ℕ := ⌊idx⌋.toNat
    let frac : ℚ := idx - (⌊idx⌋ : ℚ)
    (scaling : ℝ) * (c.getD i 0 + (frac : ℝ) * (c.getD (i + 1) (c.getD i 0) - c.getD i 0))

/-- Modelled from the spec: the open-ended regime of the previous event when
the next event (if any) is not a ramp (section 4.2): a plain hold for set
points and finished ramps, the exponential target approach
`target + (v_start - target) * exp (-(t - t0) / tau)` for `SetTarget`, and
curve sampling for `CurveEvent`. -/
noncomputable def openEnded (initial : ℝ) (evs : List AEvent) (prev : AEvent) (t : ℚ) : ℝ :=
  match prev.kind with
  | .SetTarget tau =>
      prev.value + (vstartOf initial evs prev - prev.value) *
        Real.exp (-(((t - prev.time : ℚ) : ℝ)) / ((tau : ℚ) : ℝ))
  | .CurveEvent curve duration scaling => sampleCurve curve duration scaling prev.time t
  | _ => prev.value

open Classical in
/-- Modelled from the spec: the pure curve evaluator (section 4.2,
`evaluate(previousEvent, nextEventOrNone, queryTime)`).  No previous event
yields the static initial value; a next event that is a linear ramp yields
linear interpolation between the bracketing pair; an exponential next ramp
yields `v0 * (v1 / v0) ^ frac`, falling back to linear interpolation when
either endpoint is zero or the endpoints differ in sign; otherwise the
previous event's open-ended regime applies. -/
noncomputable def evaluateBracket (initial : ℝ) (evs : List AEvent) (t : ℚ) : ℝ :=
  match eventBefore evs t with
  | none => initial
  | some prev =>
    match eventAfter evs t with
    | some next =>
      match next.kind with
      | .LinearRamp =>
          prev.value + (next.value - prev.value) * ((rampFraction prev.time next.time t : ℚ) : ℝ)
      | .ExponentialRamp =>
          if prev.value = 0 ∨ next.value = 0 ∨ prev.value * next.value < 0 then
            prev.value + (next.value - prev.value) * ((rampFraction prev.time next.time t : ℚ) : ℝ)
          else
            prev.value * (next.value / prev.value) ^ (((rampFraction prev.time next.time t : ℚ) : ℝ))
      | _ => openEnded initial evs prev t
    | none => openEnded initial evs prev t

/-- Clamp a value into the configured bounds when they are finite
(section 4.2: all outputs clamped to `[minValue, maxValue]`). -/
def clampVal (minValue maxValue : Option ℝ) (v : ℝ) : ℝ :=
  let hi := match maxValue with
    | some m => min v m
    | none => v
  match minValue with
  | some m => max hi m
  | none => hi

/-- Modelled from the spec: the state of one schedulable parameter
(section 3, `Parameter`): its event timeline, static initial value, clamp
bounds, and the `overridden` flag driven by the connection manager. -/
structure ParamState where
  events : List AEvent
  initialValue : ℝ
  minValue : Option ℝ
  maxValue : Option ℝ
  overridden : Bool

namespace Param

/-- Modelled from the spec: `getValueAtTime` delegates to the evaluator and
clamps the result (sections 4.2 and 4.3). -/
noncomputable def getValueAtTime (p : ParamState) (t : ℚ) : ℝ :=
  clampVal p.minValue p.maxValue (evaluateBracket p.initialValue p.events t)

/-- Modelled from the spec: `setValueAtTime(value, time)` inserts a step
event into the timeline (section 4.3). -/
def setValueAtTime (p : ParamState) (value : ℝ) (time : ℚ) : ParamState :=
  { p with events := insertEvent p.events ⟨time, value, .SetValue⟩ }

/-- Modelled from the spec: `linearRampToValueAtTime(value, time)` inserts a
linear ramp endpoint (section 4.3). -/
def linearRampToValueAtTime (p : ParamState) (value : ℝ) (time : ℚ) : ParamState :=
  { p with events := insertEvent p.events ⟨time, value, .LinearRamp⟩ }

/-- Modelled from the spec: `exponentialRampToValueAtTime(value, time)`
inserts an exponential ramp endpoint (section 4.3). -/
def exponentialRampToValueAtTime (p : ParamState) (value : ℝ) (time : ℚ) : ParamState :=
  { p with events := insertEvent p.events ⟨time, value, .ExponentialRamp⟩ }

/-- Modelled from the spec: `setTargetAtTime(value, startTime, timeConstant)`
inserts an open-ended exponential target approach (section 4.3). -/
def setTargetAtTime (p : ParamState) (value : ℝ) (startTime : ℚ) (timeConstant : ℚ) : ParamState :=
  { p with events := insertEvent p.events ⟨startTime, value, .SetTarget timeConstant⟩ }

/-- Modelled from the spec: `setValueCurveAtTime(values, startTime, duration,
scaling)` inserts an explicit value curve; the stored event value is the
scaled first sample, the curve's starting point (section 4.3). -/
def setValueCurveAtTime (p : ParamState) (values : List ℝ) (startTime : ℚ)
    (duration : ℚ) (scaling : ℚ) : ParamState :=
  { p with events :=
      insertEvent p.events (AEvent.mk startTime ((scaling : ℝ) * values.headD 0)
        (.CurveEvent values duration scaling)) }

/-- Modelled from the spec: the implicit hold produced by `cancelFrom`
(section 4.1): when the earliest removed event is a ramp that was active at
the cancellation time, the ramp is truncated there (an endpoint of the same
ramp kind holding the evaluator's output at that instant, so values before
the cut are unaffected); otherwise, when the latest surviving event is an
open-ended `SetTarget`, its effect is cut off by a step holding the
evaluator's output at the cancellation time. -/
noncomputable def holdCut (p : ParamState) (time : ℚ) : List AEvent :=
  let kept := p.events.filter (fun e => decide (e.time < time))
  let targetCut : List AEvent :=
    match kept.getLast? with
    | some l => if l.kind.isTarget then [⟨time, getValueAtTime p time, .SetValue⟩] else []
    | none => []
  match (p.events.filter (fun e => decide (time ≤ e.time))).head? with
  | some e => if e.kind.isRamp then [⟨time, getValueAtTime p time, e.kind⟩] else targetCut
  | none => targetCut

/-- Modelled from the spec: `cancelScheduledValues(time)` delegates to the
timeline's `cancelFrom` (sections 4.1 and 4.3): every event at or after the
given time is removed, and a ramp or open-ended `SetTarget` that is active
at that time has its effect cut off there, converting into an implicit
hold. -/
noncomputable def cancelScheduledValues (p : ParamState) (time : ℚ) : ParamState :=
  { p with events := p.events.filter (fun e => decide (e.time < time)) ++ holdCut p time }

/-- Modelled from the spec: reading the `value` property evaluates the
parameter at the caller-supplied current time (section 4.3). -/
noncomputable def getValue (p : ParamState) (now : ℚ) : ℝ :=
  getValueAtTime p now

/-- Modelled from the spec: assigning the `value` property is
`setValueAtTime(value, now)` and nothing more: it anchors the value at the
current time without cancelling any future automation (section 4.3). -/
def setValue (p : ParamState) (now : ℚ) (value : ℝ) : ParamState :=
  setValueAtTime p value now

end Param

/-- The runtime class of a connection destination, standing in for the
`instanceof Param` / `isAudioParam` / `instanceof Signal` checks of
`connectSignal` and `disconnectSignal` (Signal.js, lines 205-272).  A
`Signal` destination carries its `override` capability flag; `plain`
covers every other audio node. -/
inductive DestKind where
  | param : DestKind
  | audioParam : DestKind
  | signal : (override : Bool) → DestKind
  | plain : DestKind
deriving DecidableEq

/-- The eligibility guard of `connectSignal` (Signal.js, lines 207-209):
`destination instanceof Param || isAudioParam(destination) ||
(destination instanceof Signal && destination.override)`. -/
def DestKind.isOverridable : DestKind → Bool
  | .param => true
  | .audioParam => true
  | .signal o => o
  | .plain => false

/-- The flag-assignment guard of `connectSignal` (Signal.js, line 216):
`destination instanceof Signal || destination instanceof Param` — native
audio params carry no `overridden` flag. -/
def DestKind.hasOverriddenFlag : DestKind → Bool
  | .param => true
  | .signal _ => true
  | .audioParam => false
  | .plain => false

/-- One destination node of the audio graph: its runtime class, its
parameter state, and (for signals) the time at which the backing constant
source was started, if it was. -/
structure DestState where
  kind : DestKind
  param : ParamState
  sourceStarted : Option ℚ

/-- One entry of the per-signal connection list (Signal.js, lines 223-228):
`{ destination, outputNum, inputNum, previousValue }`. -/
structure ConnRecord where
  destination : ℕ
  outputNum : ℕ
  inputNum : ℕ
  previousValue : ℝ

/-- A call into the underlying audio-graph wiring layer (the external
`connect` / `disconnect` collaborators imported from ToneAudioNode.js),
logged so that "always performs the underlying graph connection" is a
statement about the model. -/
inductive GraphOp where
  | connect : (signal destination : ℕ) → (outputNum inputNum : Option ℕ) → GraphOp
  | disconnect : (signal : ℕ) → (destination : Option ℕ) → (outputNum inputNum : Option ℕ) → GraphOp

/-- The whole connection-manager state: every destination node, the
`connectedSignals` weak map from source signal to its connection records
(`none` when the map has no entry for the signal, Signal.js line 194), and
the log of calls made to the underlying graph wiring. -/
structure SystemState where
  dests : ℕ → DestState
  records : ℕ → Option (List ConnRecord)
  graphOps : List GraphOp

/-- The connection records currently held for a source signal (empty when
the weak map has no entry). -/
def liveRecords (st : SystemState) (sig : ℕ) : List ConnRecord :=
  (st.records sig).getD []

/-- The `Signal` constructor (Signal.js, lines 28-49): the override
capability flag is set to `true`, the backing constant source is created
with the initial value as its offset and started at time `0`, and the
signal's parameter is that source's offset with an empty schedule. -/
def newSignal (value : ℝ) (minValue maxValue : Option ℝ) : DestState :=
  { kind := .signal true
    param := { events := [], initialValue := value, minValue := minValue,
               maxValue := maxValue, overridden := false }
    sourceStarted := some 0 }

/-- `connectSignal(signal, destination, outputNum, inputNum)` (Signal.js,
lines 205-231).  When the destination is overridable: snapshot
`destination.value`, `cancelScheduledValues(0)`, `setValueAtTime(0, 0)`,
set the `overridden` flag when the destination carries one, and push a
connection record onto the source's list (creating the weak-map entry when
absent, with `outputNum || 0` and `inputNum || 0` stored).  In every case
the underlying graph `connect` is performed last. -/
noncomputable def connectSignal (st : SystemState) (sig dest : ℕ)
    (outputNum inputNum : Option ℕ) (now : ℚ) : SystemState :=
  let d := st.dests dest
  let st1 :=
    if d.kind.isOverridable then
      let previousValue := Param.getValue d.param now
      let p1 := Param.cancelScheduledValues d.param 0
      let p2 := Param.setValueAtTime p1 0 0
      let p3 := if d.kind.hasOverriddenFlag then { p2 with overridden := true } else p2
      { st with
        dests := Function.update st.dests dest { d with param := p3 }
        records := Function.update st.records sig
          (some (liveRecords st sig ++ [⟨dest, outputNum.getD 0, inputNum.getD 0, previousValue⟩])) }
    else st
  { st1 with graphOps := st1.graphOps ++ [.connect sig dest outputNum inputNum] }

/-- The record-matching predicate of `disconnectSignal` (Signal.js, lines
248-252): same destination, and each index must agree when (and only when)
it was supplied. -/
def matchesRecord (c : ConnRecord) (dest : ℕ) (outputNum inputNum : Option ℕ) : Bool :=
  c.destination == dest &&
    (match outputNum with
     | none => true
     | some n => c.outputNum == n) &&
    (match inputNum with
     | none => true
     | some n => c.inputNum == n)

/-- The outer guard of `disconnectSignal` (Signal.js, lines 241-244): the
destination is a `Param`, a native audio param, a `Signal` with its
override flag, or was omitted. -/
def disconnectGuard (st : SystemState) (destination : Option ℕ) : Bool :=
  match destination with
  | none => true
  | some d => (st.dests d).kind.isOverridable

/-- The restoration performed for one matched connection record
(Signal.js, lines 258-264): clear the `overridden` flag when the
destination carries one, then `destination.setValueAtTime(previousValue, 0)`. -/
def restoreOne (st : SystemState) (c : ConnRecord) : SystemState :=
  let d := st.dests c.destination
  let p1 := if d.kind.hasOverriddenFlag then { d.param with overridden := false } else d.param
  let p2 := Param.setValueAtTime p1 c.previousValue 0
  { st with dests := Function.update st.dests c.destination { d with param := p2 } }

/-- The error raised by `disconnectSignal` ("Not connected to destination
node", Signal.js line 255). -/
inductive SigError where
  | notConnected : SigError
deriving DecidableEq

/-- The records of one source selected by a disconnect call (Signal.js,
lines 247-253): all records when no destination is given, otherwise the
ones matching the destination and the supplied indices. -/
def selectRecords (recs : List ConnRecord) (destination : Option ℕ)
    (outputNum inputNum : Option ℕ) : List ConnRecord :=
  match destination with
  | some d => recs.filter (fun c => matchesRecord c d outputNum inputNum)
  | none => recs

/-- The records kept for the source after a successful disconnect: the ones
not selected (everything selected is removed; with no destination given the
whole list is removed). -/
def remainingRecords (recs : List ConnRecord) (destination : Option ℕ)
    (outputNum inputNum : Option ℕ) : List ConnRecord :=
  match destination with
  | some d => recs.filter (fun c => !(matchesRecord c d outputNum inputNum))
  | none => []

/-- `disconnectSignal(signal, destination, outputNum, inputNum)`
(Signal.js, lines 240-272).  Inside the outer guard and only when the weak
map holds an entry for the source: select the matching records (all of
them when no destination was given), throw `notConnected` when the
selection is empty, otherwise restore every selected record in order and
replace the source's list by the unmatched remainder (selection matches by
the same predicate as removal, so value-level filtering coincides with the
identity-based `includes` filtering of the source).  The underlying graph
`disconnect` is performed last, hence never on the error path. -/
def disconnectSignal (st : SystemState) (sig : ℕ) (destination : Option ℕ)
    (outputNum inputNum : Option ℕ) : Except SigError SystemState :=
  let fin := fun (s : SystemState) =>
    { s with graphOps := s.graphOps ++ [.disconnect sig destination outputNum inputNum] }
  if disconnectGuard st destination then
    match st.records sig with
    | none => .ok (fin st)
    | some recs =>
      let conns := selectRecords recs destination outputNum inputNum
      if conns.isEmpty then .error .notConnected
      else
        let st1 := conns.foldl restoreOne st
        let newRecs := Function.update st1.records sig
          (some (remainingRecords recs destination outputNum inputNum))
        let st2 := { st1 with records := newRecs }
        .ok (fin st2)
  else .ok (fin st)

/-- Replace one destination of the system, leaving everything else alone
(used to state properties about connecting into a freshly built signal). -/
def setDest (st : SystemState) (d : ℕ) (ds : DestState) : SystemState :=
  { st with dests := Function.update st.dests d ds }

/-- An inserted event is a member of the resulting timeline. -/
theorem mem_insertEvent_self (evs : List AEvent) (e : AEvent) : e ∈ insertEvent evs e := by
  induction evs with
  | nil => simp [insertEvent]
  | cons old rest ih =>
    simp only [insertEvent]
    split
    · exact List.mem_cons_of_mem _ ih
    · split
      · exact List.mem_cons_self _ _
      · split
        · exact List.mem_cons_of_mem _ ih
        · exact List.mem_cons_self _ _

/-- Insertion never drops an event scheduled strictly after the inserted
time (replacement only ever hits an event at exactly the inserted time). -/
theorem mem_insertEvent_of_lt {evs : List AEvent} {a : AEvent} (e : AEvent)
    (ha : a ∈ evs) (ht : e.time < a.time) : a ∈ insertEvent evs e := by
  induction evs with
  | nil => cases ha
  | cons old rest ih =>
    simp only [insertEvent]
    rcases List.mem_cons.mp ha with h | h
    · subst h
      rw [if_neg (not_lt.mpr (le_of_lt ht)), if_pos ht]
      exact List.mem_cons_of_mem _ (List.mem_cons_self _ _)
    · split
      · exact List.mem_cons_of_mem _ (ih h)
      · split
        · exact List.mem_cons_of_mem _ (List.mem_cons_of_mem _ h)
        · split
          · exact List.mem_cons_of_mem _ (ih h)
          · exact List.mem_cons_of_mem _ h

/-- Every event of the implicit hold produced by cancellation is stamped
with the cancellation time itself. -/
theorem holdCut_time {p : ParamState} {time : ℚ} :
    ∀ x ∈ Param.holdCut p time, x.time = time := by
  intro x hx
  unfold Param.holdCut at hx
  rcases hmatch : (p.events.filter (fun e => decide (time ≤ e.time))).head? with _ | ⟨e⟩ <;>
    simp only [hmatch] at hx
  · rcases hk : (p.events.filter (fun e => decide (e.time < time))).getLast? with _ | ⟨l⟩ <;>
      simp only [hk] at hx
    · cases hx
    · split at hx
      · rw [List.mem_singleton] at hx
        rw [hx]
      · cases hx
  · split at hx
    · rw [List.mem_singleton] at hx
      rw [hx]
    · rcases hk : (p.events.filter (fun e => decide (e.time < time))).getLast? with _ | ⟨l⟩ <;>
        simp only [hk] at hx
      · cases hx
      · split at hx
        · rw [List.mem_singleton] at hx
          rw [hx]
        · cases hx

/-- Prepending keeps the last element of a nonempty list. -/
theorem getLast?_cons_of_eq {α : Type} {l : List α} {a x : α}
    (h : l.getLast? = some x) : (a :: l).getLast? = some x := by
  cases l with
  | nil => cases h
  | cons b bs => rw [List.getLast?_cons_cons]; exact h

/-- On an ordered timeline, the freshly inserted event is the bracketing
previous event at its own schedule time: replacement semantics guarantee
the most recent insertion wins at that instant. -/
theorem eventBefore_insertEvent_self {evs : List AEvent} (e : AEvent)
    (hwf : EventsOrdered evs) :
    eventBefore (insertEvent evs e) e.time = some e := by
  induction evs with
  | nil => simp [insertEvent, eventBefore]
  | cons old rest ih =>
    have hrel := (List.pairwise_cons.mp hwf).1
    have hwf' : EventsOrdered rest := (List.pairwise_cons.mp hwf).2
    have hrest : ∀ b ∈ rest, old.time ≤ b.time := by
      intro b hb
      rcases hrel b hb with h | ⟨h, _⟩
      · exact le_of_lt h
      · exact le_of_eq h
    simp only [insertEvent]
    by_cases h1 : old.time < e.time
    · rw [if_pos h1]
      unfold eventBefore
      rw [List.filter_cons_of_pos (by simpa using le_of_lt h1)]
      exact getLast?_cons_of_eq (ih hwf')
    · by_cases h2 : e.time < old.time
      · rw [if_neg h1, if_pos h2]
        unfold eventBefore
        rw [List.filter_cons_of_pos (by simp), List.filter_cons_of_neg (by simpa using h2)]
        have hnil : rest.filter (fun x => decide (x.time ≤ e.time)) = [] := by
          rw [List.filter_eq_nil_iff]
          intro b hb
          simp only [decide_eq_true_eq]
          exact not_le.mpr (lt_of_lt_of_le h2 (hrest b hb))
        rw [hnil]
        rfl
      · have heq : old.time = e.time := le_antisymm (not_lt.mp h2) (not_lt.mp h1)
        by_cases h3 : old.kind.isTarget
        · rw [if_neg h1, if_neg h2, if_pos h3]
          unfold eventBefore
          rw [List.filter_cons_of_pos (by simpa using le_of_eq heq)]
          exact getLast?_cons_of_eq (ih hwf')
        · rw [if_neg h1, if_neg h2, if_neg h3]
          unfold eventBefore
          rw [List.filter_cons_of_pos (by simp)]
          have hnil : rest.filter (fun x => decide (x.time ≤ e.time)) = [] := by
            rw [List.filter_eq_nil_iff]
            intro b hb
            simp only [decide_eq_true_eq]
            rcases hrel b hb with h | ⟨h, htar⟩
            · exact not_le.mpr (heq ▸ h)
            · exact absurd htar h3
          rw [hnil]
          rfl

/-- C5: evaluation is a deterministic pure function of the stored events,
the static initial value and the clamp bounds: two parameter states that
agree on those (whatever their `overridden` flag or anything else) yield
the same `getValueAtTime` result at every query time, so repeated calls
with no intervening mutation return the identical value. -/
theorem getValueAtTime_deterministic (p q : ParamState) (t : ℚ)
    (hev : p.events = q.events) (hinit : p.initialValue = q.initialValue)
    (hmin : p.minValue = q.minValue) (hmax : p.maxValue = q.maxValue) :
    Param.getValueAtTime p t = Param.getValueAtTime q t := by
  simp [Param.getValueAtTime, hev, hinit, hmin, hmax]

/-- Witness for C5: two states differing only in the `overridden` flag
evaluate identically. -/
theorem getValueAtTime_deterministic_witness :
    Param.getValueAtTime ⟨[], 0, none, none, false⟩ 1 =
      Param.getValueAtTime ⟨[], 0, none, none, true⟩ 1 :=
  getValueAtTime_deterministic ⟨[], 0, none, none, false⟩ ⟨[], 0, none, none, true⟩ 1
    rfl rfl rfl rfl

/-- C7: assigning the `value` property anchors the value at the current
time and leaves every event scheduled strictly after the current time in
place — it never cancels future automation; removal of scheduled events is
what `cancelScheduledValues` does: after it, no surviving event lies
strictly after the cancellation time. -/
theorem value_assignment_frame (p : ParamState) (now : ℚ) (v : ℝ) :
    (⟨now, v, .SetValue⟩ : AEvent) ∈ (Param.setValue p now v).events ∧
    (∀ e ∈ p.events, now < e.time → e ∈ (Param.setValue p now v).events) ∧
    (∀ e ∈ (Param.cancelScheduledValues p now).events, e.time ≤ now) := by
  refine ⟨mem_insertEvent_self _ _, fun e he ht => mem_insertEvent_of_lt _ he ht, ?_⟩
  intro e he
  simp only [Param.cancelScheduledValues] at he
  rcases List.mem_append.mp he with h | h
  · have := (List.mem_filter.mp h).2
    simp only [decide_eq_true_eq] at this
    exact this.le
  · exact (holdCut_time e h).le

/-- Witness for C7: with a set point at time 0 and a ramp at time 2,
assigning the value at time 1 keeps the future ramp event. -/
theorem value_assignment_frame_witness :
    (⟨2, (10 : ℝ), .LinearRamp⟩ : AEvent) ∈
      (Param.setValue ⟨[⟨2, (10 : ℝ), .LinearRamp⟩], 0, none, none, false⟩ 1 4).events :=
  (value_assignment_frame ⟨[⟨2, (10 : ℝ), .LinearRamp⟩], 0, none, none, false⟩ 1 4).2.1
    ⟨2, (10 : ℝ), .LinearRamp⟩ (by simp) (by norm_num)

/-- Closed form of `connectSignal` on an overridable destination carrying
an `overridden` flag: the snapshot of the destination's value before any
mutation becomes the stored `previousValue`, the destination's schedule is
cancelled from 0 and zeroed at 0, its flag is raised, one record is pushed
for the source, and the graph `connect` is logged. -/
theorem connectSignal_overridable_eq (st : SystemState) (sig dest : ℕ)
    (o i : Option ℕ) (now : ℚ)
    (h : (st.dests dest).kind.isOverridable = true)
    (hflag : (st.dests dest).kind.hasOverriddenFlag = true) :
    connectSignal st sig dest o i now =
      { dests := Function.update st.dests dest
          { st.dests dest with param :=
              { Param.setValueAtTime (Param.cancelScheduledValues (st.dests dest).param 0) 0 0 with
                  overridden := true } }
        records := Function.update st.records sig
          (some (liveRecords st sig ++
            [⟨dest, o.getD 0, i.getD 0, Param.getValue (st.dests dest).param now⟩]))
        graphOps := st.graphOps ++ [.connect sig dest o i] } := by
  unfold connectSignal
  simp only [h, hflag, if_true]

/-- The graph wiring of `connectSignal` happens for every destination,
overridable or not. -/
theorem connectSignal_graphOps (st : SystemState) (sig dest : ℕ)
    (o i : Option ℕ) (now : ℚ) :
    (connectSignal st sig dest o i now).graphOps =
      st.graphOps ++ [.connect sig dest o i] := by
  by_cases h : (st.dests dest).kind.isOverridable = true <;> simp [connectSignal, h]

/-- C1: for a destination that is a schedulable parameter or a signal with
its override flag set, `connect` snapshots the destination's value as
`previousValue` before mutating, cancels its schedule from 0, zeroes it at
0, raises its `overridden` flag and appends the connection record
`(destination, output index, input index, previousValue)` to the source's
record set; and for every destination whatsoever the underlying graph
connection is performed. -/
theorem connectSignal_override_semantics (st : SystemState) (sig dest : ℕ)
    (o i : Option ℕ) (now : ℚ) :
    ((st.dests dest).kind = .param ∨ (st.dests dest).kind = .signal true →
      connectSignal st sig dest o i now =
        { dests := Function.update st.dests dest
            { st.dests dest with param :=
                { Param.setValueAtTime (Param.cancelScheduledValues (st.dests dest).param 0) 0 0 with
                    overridden := true } }
          records := Function.update st.records sig
            (some (liveRecords st sig ++
              [⟨dest, o.getD 0, i.getD 0, Param.getValue (st.dests dest).param now⟩]))
          graphOps := st.graphOps ++ [.connect sig dest o i] }) ∧
    (connectSignal st sig dest o i now).graphOps =
      st.graphOps ++ [.connect sig dest o i] := by
  refine ⟨fun hk => ?_, connectSignal_graphOps st sig dest o i now⟩
  rcases hk with hk | hk <;>
    exact connectSignal_overridable_eq st sig dest o i now
      (by rw [hk]; rfl) (by rw [hk]; rfl)

/-- Witness for C1: connecting one fresh signal to another raises the
destination's `overridden` flag. -/
theorem connectSignal_override_semantics_witness :
    ((connectSignal
        { dests := fun _ => newSignal 5 none none
          records := fun _ => none
          graphOps := [] } 0 1 none none 0).dests 1).param.overridden = true := by
  have h := (connectSignal_override_semantics
    { dests := fun _ => newSignal 5 none none
      records := fun _ => none
      graphOps := [] } 0 1 none none 0).1 (Or.inr rfl)
  rw [h]
  simp [Function.update_same, Param.setValueAtTime]

/-- A freshly built signal with an empty schedule evaluates to its clamped
initial value at every time. -/
theorem getValue_newSignal (v : ℝ) (mn mx : Option ℝ) (now : ℚ) :
    Param.getValue (newSignal v mn mx).param now = clampVal mn mx v := by
  simp [Param.getValue, Param.getValueAtTime, evaluateBracket, eventBefore, newSignal]

/-- C10: every newly constructed `Signal` has its override capability flag
set and its backing constant source started at time 0 (it is producing its
value immediately), so used as the destination of a connect from another
signal it always undergoes the override sequence: the record appended for
the source snapshots the fresh signal's (clamped) initial value, and the
fresh signal ends up marked `overridden`. -/
theorem newSignal_always_overridable (v : ℝ) (mn mx : Option ℝ)
    (st : SystemState) (sig d : ℕ) (o i : Option ℕ) (now : ℚ) :
    (newSignal v mn mx).kind = .signal true ∧
    (newSignal v mn mx).sourceStarted = some 0 ∧
    (newSignal v mn mx).kind.isOverridable = true ∧
    liveRecords (connectSignal (setDest st d (newSignal v mn mx)) sig d o i now) sig =
      liveRecords (setDest st d (newSignal v mn mx)) sig ++
        [⟨d, o.getD 0, i.getD 0, clampVal mn mx v⟩] ∧
    ((connectSignal (setDest st d (newSignal v mn mx)) sig d o i now).dests d).param.overridden
      = true := by
  have hd : (setDest st d (newSignal v mn mx)).dests d = newSignal v mn mx := by
    simp [setDest, Function.update_same]
  have h := connectSignal_overridable_eq (setDest st d (newSignal v mn mx)) sig d o i now
    (by rw [hd]; rfl) (by rw [hd]; rfl)
  refine ⟨rfl, rfl, rfl, ?_, ?_⟩
  · rw [h]
    simp only [liveRecords, Function.update_same, Option.getD_some, hd,
      getValue_newSignal]
  · rw [h]
    simp only [Function.update_same, hd]

/-- Clamping leaves a value inside the configured bounds unchanged. -/
theorem clampVal_of_mem (mn mx : Option ℝ) (v : ℝ)
    (hlo : ∀ m, mn = some m → m ≤ v) (hhi : ∀ M, mx = some M → v ≤ M) :
    clampVal mn mx v = v := by
  unfold clampVal
  cases mx with
  | none =>
    cases mn with
    | none => rfl
    | some m => simpa using max_eq_left (hlo m rfl)
  | some M =>
    have h1 : min v M = v := min_eq_left (hhi M rfl)
    cases mn with
    | none => simpa using h1
    | some m =>
      simp only [h1]
      exact max_eq_left (hlo m rfl)

/-- C6: on an ordered timeline, `setValueAtTime(v, t)` immediately followed
by `getValueAtTime(t)` returns `v`, for every value within the parameter's
clamp bounds and every time. -/
theorem setValueAtTime_roundTrip (p : ParamState) (v : ℝ) (t : ℚ)
    (hwf : EventsOrdered p.events)
    (hlo : ∀ m, p.minValue = some m → m ≤ v)
    (hhi : ∀ M, p.maxValue = some M → v ≤ M) :
    Param.getValueAtTime (Param.setValueAtTime p v t) t = v := by
  have hb : eventBefore (insertEvent p.events ⟨t, v, .SetValue⟩) t = some ⟨t, v, .SetValue⟩ :=
    eventBefore_insertEvent_self ⟨t, v, .SetValue⟩ hwf
  have hev : evaluateBracket p.initialValue (insertEvent p.events ⟨t, v, .SetValue⟩) t = v := by
    unfold evaluateBracket
    rw [hb]
    cases ha : eventAfter (insertEvent p.events ⟨t, v, .SetValue⟩) t with
    | none => rfl
    | some next =>
      obtain ⟨nt, nv, nk⟩ := next
      have h0 : rampFraction t nt t = 0 := by
        unfold rampFraction
        simp
      cases nk with
      | SetValue => rfl
      | LinearRamp =>
        show v + (nv - v) * ((rampFraction t nt t : ℚ) : ℝ) = v
        rw [h0]
        norm_num
      | ExponentialRamp =>
        show (if v = 0 ∨ nv = 0 ∨ v * nv < 0 then
            v + (nv - v) * ((rampFraction t nt t : ℚ) : ℝ)
          else v * (nv / v) ^ (((rampFraction t nt t : ℚ) : ℝ))) = v
        rw [h0]
        split
        · norm_num
        · norm_num
      | SetTarget c => rfl
      | CurveEvent curve duration scaling => rfl
  show clampVal p.minValue p.maxValue
      (evaluateBracket p.initialValue (insertEvent p.events ⟨t, v, .SetValue⟩) t) = v
  rw [hev]
  exact clampVal_of_mem p.minValue p.maxValue v hlo hhi

/-- Witness for C6: setting 3 at time 2 on a bounded fresh parameter and
reading it back at time 2 yields 3. -/
theorem setValueAtTime_roundTrip_witness :
    Param.getValueAtTime
      (Param.setValueAtTime ⟨[], 0, some (-10), some 10, false⟩ 3 2) 2 = 3 :=
  setValueAtTime_roundTrip ⟨[], 0, some (-10), some 10, false⟩ 3 2
    (List.Pairwise.nil)
    (fun m hm => by cases hm; norm_num)
    (fun M hM => by cases hM; norm_num)

/-- The parameter of the cancellation scenario before cancelling: a fresh
unbounded parameter, `setValueAtTime(5, 0)` then
`linearRampToValueAtTime(10, 2)`. -/
def rampParam : ParamState :=
  Param.linearRampToValueAtTime
    (Param.setValueAtTime ⟨[], 0, none, none, false⟩ 5 0) 10 2

/-- The cancellation scenario after `cancelScheduledValues(1)`. -/
noncomputable def rampParamCancelled : ParamState :=
  Param.cancelScheduledValues rampParam 1

/-- The schedule of the scenario parameter: the set point and the ramp
endpoint, in time order. -/
theorem rampParam_events :
    rampParam.events = [⟨0, (5 : ℝ), .SetValue⟩, ⟨2, (10 : ℝ), .LinearRamp⟩] := by
  norm_num [rampParam, Param.setValueAtTime, Param.linearRampToValueAtTime, insertEvent]

/-- Mid-ramp evaluation before cancellation: at time 1 the ramp reads 7.5. -/
theorem rampParam_at_one : Param.getValueAtTime rampParam 1 = 15 / 2 := by
  have hb : eventBefore rampParam.events 1 = some ⟨0, (5 : ℝ), .SetValue⟩ := by
    rw [rampParam_events]
    norm_num [eventBefore, List.filter]
  have ha : eventAfter rampParam.events 1 = some ⟨2, (10 : ℝ), .LinearRamp⟩ := by
    rw [rampParam_events]
    norm_num [eventAfter, List.filter]
  have hfr : rampFraction 0 2 1 = 1 / 2 := by
    unfold rampFraction
    norm_num
  show clampVal none none (evaluateBracket 0 rampParam.events 1) = 15 / 2
  unfold evaluateBracket
  rw [hb, ha]
  show (5 : ℝ) + (10 - 5) * ((rampFraction 0 2 1 : ℚ) : ℝ) = 15 / 2
  rw [hfr]
  norm_num

/-- Cancelling at time 1 truncates the active ramp: the surviving schedule
is the original set point followed by a ramp endpoint at the cancellation
time holding the interpolated value 7.5. -/
theorem rampParamCancelled_events :
    rampParamCancelled.events =
      [⟨0, (5 : ℝ), .SetValue⟩, ⟨1, (15 / 2 : ℝ), .LinearRamp⟩] := by
  show rampParam.events.filter (fun e => decide (e.time < 1)) ++ Param.holdCut rampParam 1 =
    [⟨0, (5 : ℝ), .SetValue⟩, ⟨1, (15 / 2 : ℝ), .LinearRamp⟩]
  have hkept : rampParam.events.filter (fun e => decide (e.time < 1)) =
      [⟨0, (5 : ℝ), .SetValue⟩] := by
    rw [rampParam_events]
    norm_num [List.filter]
  have hrem : rampParam.events.filter (fun e => decide ((1 : ℚ) ≤ e.time)) =
      [⟨2, (10 : ℝ), .LinearRamp⟩] := by
    rw [rampParam_events]
    norm_num [List.filter]
  have hcut : Param.holdCut rampParam 1 = [⟨1, (15 / 2 : ℝ), .LinearRamp⟩] := by
    unfold Param.holdCut
    rw [hkept, hrem]
    simp only [List.head?, ACurve.isRamp, if_true, rampParam_at_one]
  rw [hkept, hcut]
  rfl

/-- C4: after `setValueAtTime(5, 0)`, `linearRampToValueAtTime(10, 2)`,
`cancelScheduledValues(1)`, the active ramp is cut off at time 1 and held:
`getValueAtTime(1.5)` returns the value interpolated at the cancellation
point (7.5), not 10; and the cancellation is not retroactive: the value at
time 0.5 is the same as before cancelling. -/
theorem cancelScheduledValues_cuts_ramp :
    Param.getValueAtTime rampParamCancelled (3 / 2) = 15 / 2 ∧
    Param.getValueAtTime rampParamCancelled (3 / 2) ≠ 10 ∧
    Param.getValueAtTime rampParamCancelled (1 / 2) =
      Param.getValueAtTime rampParam (1 / 2) := by
  have h32 : Param.getValueAtTime rampParamCancelled (3 / 2) = 15 / 2 := by
    have hb : eventBefore rampParamCancelled.events (3 / 2) =
        some ⟨1, (15 / 2 : ℝ), .LinearRamp⟩ := by
      rw [rampParamCancelled_events]
      norm_num [eventBefore, List.filter]
    have ha : eventAfter rampParamCancelled.events (3 / 2) = none := by
      rw [rampParamCancelled_events]
      norm_num [eventAfter, List.filter]
    show clampVal none none (evaluateBracket 0 rampParamCancelled.events (3 / 2)) = 15 / 2
    unfold evaluateBracket
    rw [hb, ha]
    rfl
  have hhalfc : Param.getValueAtTime rampParamCancelled (1 / 2) = 25 / 4 := by
    have hb : eventBefore rampParamCancelled.events (1 / 2) =
        some ⟨0, (5 : ℝ), .SetValue⟩ := by
      rw [rampParamCancelled_events]
      norm_num [eventBefore, List.filter]
    have ha : eventAfter rampParamCancelled.events (1 / 2) =
        some ⟨1, (15 / 2 : ℝ), .LinearRamp⟩ := by
      rw [rampParamCancelled_events]
      norm_num [eventAfter, List.filter]
    have hfr : rampFraction 0 1 (1 / 2) = 1 / 2 := by
      unfold rampFraction
      norm_num
    show clampVal none none (evaluateBracket 0 rampParamCancelled.events (1 / 2)) = 25 / 4
    unfold evaluateBracket
    rw [hb, ha]
    show (5 : ℝ) + (15 / 2 - 5) * ((rampFraction 0 1 (1 / 2) : ℚ) : ℝ) = 25 / 4
    rw [hfr]
    norm_num
  have hhalf : Param.getValueAtTime rampParam (1 / 2) = 25 / 4 := by
    have hb : eventBefore rampParam.events (1 / 2) = some ⟨0, (5 : ℝ), .SetValue⟩ := by
      rw [rampParam_events]
      norm_num [eventBefore, List.filter]
    have ha : eventAfter rampParam.events (1 / 2) = some ⟨2, (10 : ℝ), .LinearRamp⟩ := by
      rw [rampParam_events]
      norm_num [eventAfter, List.filter]
    have hfr : rampFraction 0 2 (1 / 2) = 1 / 4 := by
      unfold rampFraction
      norm_num
    show clampVal none none (evaluateBracket 0 rampParam.events (1 / 2)) = 25 / 4
    unfold evaluateBracket
    rw [hb, ha]
    show (5 : ℝ) + (10 - 5) * ((rampFraction 0 2 (1 / 2) : ℚ) : ℝ) = 25 / 4
    rw [hfr]
    norm_num
  refine ⟨h32, ?_, by rw [hhalfc, hhalf]⟩
  rw [h32]
  norm_num

/-- The exponential-approach scenario: a parameter whose value is 1 with
`setTargetAtTime(target = 0, startTime = 0, timeConstant = 1)` applied. -/
def targetParam : ParamState :=
  Param.setTargetAtTime ⟨[], 1, none, none, false⟩ 0 0 1

/-- C8: after `setTargetAtTime(0, 0, 1)` on a parameter at value 1, the
evaluator follows `v(t) = target + (v_start - target) * exp (-(t - t0) / tau)`
at every time at or after the start — the target event stays in effect,
open-ended — so `getValueAtTime(1)` is exactly `e⁻¹`, which lies within
`10⁻³` of 0.3679. -/
theorem setTargetAtTime_exponential (t : ℚ) (ht : 0 ≤ t) :
    Param.getValueAtTime targetParam t = Real.exp (-((t : ℚ) : ℝ)) ∧
    |Real.exp (-1 : ℝ) - 0.3679| ≤ 1 / 1000 := by
  constructor
  · have hevs : targetParam.events = [(⟨0, (0 : ℝ), .SetTarget 1⟩ : AEvent)] := rfl
    have hb : eventBefore targetParam.events t = some ⟨0, (0 : ℝ), .SetTarget 1⟩ := by
      unfold eventBefore
      rw [hevs, List.filter_cons_of_pos (by simpa using ht)]
      rfl
    have ha : eventAfter targetParam.events t = none := by
      unfold eventAfter
      rw [hevs, List.filter_cons_of_neg (by simpa using not_lt.mpr ht)]
      rfl
    have hv : vstartOf 1 targetParam.events ⟨0, (0 : ℝ), .SetTarget 1⟩ = 1 := by
      unfold vstartOf
      rw [hevs, List.filter_cons_of_neg (by norm_num)]
      rfl
    show clampVal none none (evaluateBracket 1 targetParam.events t) = Real.exp (-((t : ℚ) : ℝ))
    unfold evaluateBracket
    rw [hb, ha]
    show (0 : ℝ) + (vstartOf 1 targetParam.events ⟨0, (0 : ℝ), .SetTarget 1⟩ - 0) *
        Real.exp (-(((t - 0 : ℚ) : ℝ)) / (((1 : ℚ)) : ℝ)) = Real.exp (-((t : ℚ) : ℝ))
    rw [hv]
    push_cast
    ring_nf
  · have hpos : (0 : ℝ) < Real.exp 1 := Real.exp_pos 1
    have hgt : (2.7182818283 : ℝ) < Real.exp 1 := Real.exp_one_gt_d9
    have hlt : Real.exp 1 < 2.7182818286 := Real.exp_one_lt_d9
    have hinv : (Real.exp 1)⁻¹ * Real.exp 1 = 1 := inv_mul_cancel₀ (ne_of_gt hpos)
    have hy : (0 : ℝ) < (Real.exp 1)⁻¹ := inv_pos.mpr hpos
    have k1 : (Real.exp 1)⁻¹ * (2.7182818286 - Real.exp 1) > 0 :=
      mul_pos hy (by linarith)
    have k2 : (Real.exp 1)⁻¹ * (Real.exp 1 - 2.7182818283) > 0 :=
      mul_pos hy (by linarith)
    rw [Real.exp_neg, abs_le]
    constructor
    · nlinarith [k1, hinv]
    · nlinarith [k2, hinv]

/-- Witness for C8: the evaluation at time 1 is exactly `e⁻¹`. -/
theorem setTargetAtTime_exponential_witness :
    Param.getValueAtTime targetParam 1 = Real.exp (-1 : ℝ) := by
  have h := (setTargetAtTime_exponential 1 (by norm_num)).1
  rw [h]
  norm_num

/-- Restoring a record never touches the graph-operation log. -/
theorem restoreOne_graphOps (st : SystemState) (c : ConnRecord) :
    (restoreOne st c).graphOps = st.graphOps := rfl

/-- Restoring any list of records never touches the graph-operation log. -/
theorem foldl_restoreOne_graphOps (l : List ConnRecord) (st : SystemState) :
    (l.foldl restoreOne st).graphOps = st.graphOps := by
  induction l generalizing st with
  | nil => rfl
  | cons c cs ih => rw [List.foldl_cons, ih, restoreOne_graphOps]

/-- A system of fresh signals where no source ever made an overriding
connection: the weak map has no entry for any signal. -/
def freshSystem : SystemState :=
  { dests := fun _ => newSignal 5 none none
    records := fun _ => none
    graphOps := [] }

/-- A system of fresh signals where source 0 once held connection records
that have all been removed again: the weak map still has an (empty) entry. -/
def drainedSystem : SystemState :=
  { dests := fun _ => newSignal 5 none none
    records := fun _ => some []
    graphOps := [] }

/-- C2 counterexample: `disconnect(source, destination)` with a destination
given and zero matching live connection records (the source never made an
overriding connection, so the weak map has no entry for it) does NOT raise
`NotConnectedError`: it returns successfully, performing only the graph
disconnection.  This refutes the claimed "raises if and only if a
destination was given and zero records match". -/
theorem disconnect_no_entry_no_error :
    liveRecords freshSystem 0 = [] ∧
    disconnectSignal freshSystem 0 (some 1) none none =
      .ok { freshSystem with graphOps := [.disconnect 0 (some 1) none none] } :=
  ⟨rfl, rfl⟩

/-- Success path of `disconnectSignal`: with a stored entry, a passing
guard and a nonempty selection, the call restores every selected record in
order, replaces the source's list by the unmatched remainder, and logs the
graph disconnection. -/
theorem disconnectSignal_ok (st : SystemState) (sig : ℕ) (destination : Option ℕ)
    (o i : Option ℕ) (recs : List ConnRecord) (hrec : st.records sig = some recs)
    (hg : disconnectGuard st destination = true)
    (hne : selectRecords recs destination o i ≠ []) :
    disconnectSignal st sig destination o i =
      .ok { (selectRecords recs destination o i).foldl restoreOne st with
            records := Function.update
              ((selectRecords recs destination o i).foldl restoreOne st).records sig
              (some (remainingRecords recs destination o i))
            graphOps := st.graphOps ++ [.disconnect sig destination o i] } := by
  rcases hsel : selectRecords recs destination o i with _ | ⟨c, cs⟩
  · exact absurd hsel hne
  · simp only [disconnectSignal, hg, if_true, hrec, hsel, List.isEmpty_cons,
      Bool.false_eq_true, if_false, Except.ok.injEq]
    rw [← hsel, foldl_restoreOne_graphOps]

/-- Error path of `disconnectSignal`: the throw happens exactly when the
outer guard passes, the weak map holds an entry for the source, and the
selection of matching records is empty. -/
theorem disconnectSignal_error_iff (st : SystemState) (sig : ℕ)
    (destination : Option ℕ) (o i : Option ℕ) :
    disconnectSignal st sig destination o i = .error .notConnected ↔
      disconnectGuard st destination = true ∧
      ∃ recs, st.records sig = some recs ∧ selectRecords recs destination o i = [] := by
  by_cases hg : disconnectGuard st destination = true
  · rcases hrec : st.records sig with _ | recs
    · simp [disconnectSignal, hg, hrec]
    · rcases hsel : selectRecords recs destination o i with _ | ⟨c, cs⟩
      · simp [disconnectSignal, hg, hrec, hsel]
      · simp [disconnectSignal, hg, hrec, hsel]
  · simp [disconnectSignal, hg]

/-- C2 amended: `disconnect` raises `NotConnectedError` exactly when the
outer guard passes (destination omitted or overridable), the weak map holds
an entry for the source, and the selection of matching records is empty —
so a source without an entry never raises even for an unmatched
destination, and a source with an emptied entry raises even when no
destination was given.  On success with a stored entry and a nonempty
selection, every selected record is restored in order (flag cleared,
`setValueAtTime(previousValue, 0)`) and the source's list is replaced by
the unmatched remainder; the graph disconnection is performed on every
non-error path and only then. -/
theorem disconnectSignal_characterization (st : SystemState) (sig : ℕ)
    (destination : Option ℕ) (o i : Option ℕ) :
    (disconnectSignal st sig destination o i = .error .notConnected ↔
      disconnectGuard st destination = true ∧
      ∃ recs, st.records sig = some recs ∧ selectRecords recs destination o i = []) ∧
    (∀ recs, st.records sig = some recs → disconnectGuard st destination = true →
      selectRecords recs destination o i ≠ [] →
      disconnectSignal st sig destination o i =
        .ok { (selectRecords recs destination o i).foldl restoreOne st with
              records := Function.update
                ((selectRecords recs destination o i).foldl restoreOne st).records sig
                (some (remainingRecords recs destination o i))
              graphOps := st.graphOps ++ [.disconnect sig destination o i] }) ∧
    (∀ st', disconnectSignal st sig destination o i = .ok st' →
      st'.graphOps = st.graphOps ++ [.disconnect sig destination o i]) := by
  refine ⟨disconnectSignal_error_iff st sig destination o i, ?_, ?_⟩
  · exact fun recs hrec hg hne => disconnectSignal_ok st sig destination o i recs hrec hg hne
  · intro st' h
    by_cases hg : disconnectGuard st destination = true
    · rcases hrec : st.records sig with _ | recs
      · simp only [disconnectSignal, hg, if_true, hrec, Except.ok.injEq] at h
        rw [← h]
      · rcases hsel : selectRecords recs destination o i with _ | ⟨c, cs⟩
        · simp [disconnectSignal, hg, hrec, hsel] at h
        · simp only [disconnectSignal, hg, if_true, hrec, hsel, List.isEmpty_cons,
            Bool.false_eq_true, if_false, Except.ok.injEq] at h
          rw [← h]
          show (List.foldl restoreOne st (c :: cs)).graphOps ++ _ = _
          rw [foldl_restoreOne_graphOps]
    · simp only [disconnectSignal, hg, Bool.false_eq_true, if_false, Except.ok.injEq] at h
      rw [← h]

/-- Witness for the amended C2: a source whose record entry exists but is
empty raises `NotConnectedError` even though no destination was given. -/
theorem disconnectSignal_characterization_witness :
    disconnectSignal drainedSystem 0 none none none = .error .notConnected :=
  (disconnectSignal_characterization drainedSystem 0 none none none).1.mpr
    ⟨rfl, [], rfl, rfl⟩

/-- A parameter with no scheduled events evaluates to its initial value. -/
theorem getValue_of_no_events (p : ParamState) (now : ℚ) (hev : p.events = [])
    (hmn : p.minValue = none) (hmx : p.maxValue = none) :
    Param.getValue p now = p.initialValue := by
  unfold Param.getValue Param.getValueAtTime
  rw [hmn, hmx, hev]
  rfl

/-- Cancelling from time 0 on a parameter with no events leaves no events. -/
theorem cancel0_of_no_events (p : ParamState) (hev : p.events = []) :
    (Param.cancelScheduledValues p 0).events = [] := by
  show p.events.filter (fun e => decide (e.time < 0)) ++ Param.holdCut p 0 = []
  unfold Param.holdCut
  rw [hev]
  rfl

/-- Cancelling from time 0 removes a single step event scheduled at time 0
without leaving a hold (a step is not an active ramp or target). -/
theorem cancel0_of_zeroStep (p : ParamState) (v : ℝ)
    (hev : p.events = [⟨0, v, .SetValue⟩]) :
    (Param.cancelScheduledValues p 0).events = [] := by
  show p.events.filter (fun e => decide (e.time < 0)) ++ Param.holdCut p 0 = []
  unfold Param.holdCut
  rw [hev]
  rfl

/-- A parameter whose only event is a step at time 0 evaluates to that step
value at every nonnegative time (with no finite bounds). -/
theorem getValue_of_zeroStep (p : ParamState) (now : ℚ) (v : ℝ)
    (hev : p.events = [⟨0, v, .SetValue⟩]) (hmn : p.minValue = none)
    (hmx : p.maxValue = none) (hnow : 0 ≤ now) :
    Param.getValue p now = v := by
  unfold Param.getValue Param.getValueAtTime
  rw [hmn, hmx, hev]
  have hb : eventBefore [(⟨0, v, .SetValue⟩ : AEvent)] now = some ⟨0, v, .SetValue⟩ := by
    unfold eventBefore
    rw [List.filter_cons_of_pos (by simpa using hnow)]
    rfl
  have ha : eventAfter [(⟨0, v, .SetValue⟩ : AEvent)] now = none := by
    unfold eventAfter
    rw [List.filter_cons_of_neg (by simpa using not_lt.mpr hnow)]
    rfl
  show clampVal none none (evaluateBracket p.initialValue [⟨0, v, .SetValue⟩] now) = v
  unfold evaluateBracket
  rw [hb, ha]
  rfl

/-- C9: connecting the same source to the same overridable destination a
second time without disconnecting appends a second record whose
`previousValue` snapshot is the already-overridden value 0 (set by the
first connect), so a destination-matching disconnect that removes both
records ends with the destination restored to 0 and not to the value it
held before the first connect. -/
theorem double_connect_snapshots_overridden_value
    (st : SystemState) (A B : ℕ) (now1 now2 now3 : ℚ)
    (hkind : (st.dests B).kind = .signal true)
    (hmn : (st.dests B).param.minValue = none)
    (hmx : (st.dests B).param.maxValue = none)
    (hev : (st.dests B).param.events = [])
    (hrec : st.records A = none)
    (h2 : 0 ≤ now2) (h3 : 0 ≤ now3)
    (hne : (st.dests B).param.initialValue ≠ 0) :
    liveRecords (connectSignal (connectSignal st A B none none now1) A B none none now2) A =
      [⟨B, 0, 0, (st.dests B).param.initialValue⟩, ⟨B, 0, 0, (0 : ℝ)⟩] ∧
    ∃ st3,
      disconnectSignal
          (connectSignal (connectSignal st A B none none now1) A B none none now2)
          A (some B) none none = .ok st3 ∧
      Param.getValue ((st3.dests B).param) now3 = 0 ∧
      Param.getValue ((st3.dests B).param) now3 ≠ (st.dests B).param.initialValue := by
  have hov : (st.dests B).kind.isOverridable = true := by rw [hkind]; rfl
  have hfl : (st.dests B).kind.hasOverriddenFlag = true := by rw [hkind]; rfl
  have e1 := connectSignal_overridable_eq st A B none none now1 hov hfl
  set st1 := connectSignal st A B none none now1 with hst1
  set P1 : ParamState :=
    { Param.setValueAtTime (Param.cancelScheduledValues (st.dests B).param 0) 0 0 with
        overridden := true } with hP1def
  have h1d : st1.dests B = { st.dests B with param := P1 } := by
    rw [e1]
    exact Function.update_same _ _ _
  have hval1 : Param.getValue (st.dests B).param now1 = (st.dests B).param.initialValue :=
    getValue_of_no_events _ now1 hev hmn hmx
  have h1r : st1.records A = some [⟨B, 0, 0, (st.dests B).param.initialValue⟩] := by
    rw [e1]
    simp [liveRecords, hrec, hval1]
  have hP1ev : P1.events = [⟨0, (0 : ℝ), .SetValue⟩] := by
    show insertEvent (Param.cancelScheduledValues (st.dests B).param 0).events
      ⟨0, (0 : ℝ), .SetValue⟩ = _
    rw [cancel0_of_no_events _ hev]
    rfl
  have hP1mn : P1.minValue = none := hmn
  have hP1mx : P1.maxValue = none := hmx
  have hov1 : (st1.dests B).kind.isOverridable = true := by rw [h1d]; exact hov
  have hfl1 : (st1.dests B).kind.hasOverriddenFlag = true := by rw [h1d]; exact hfl
  have e2 := connectSignal_overridable_eq st1 A B none none now2 hov1 hfl1
  set st2 := connectSignal st1 A B none none now2 with hst2
  set P2 : ParamState :=
    { Param.setValueAtTime (Param.cancelScheduledValues (st1.dests B).param 0) 0 0 with
        overridden := true } with hP2def
  have hval2 : Param.getValue (st1.dests B).param now2 = 0 := by
    rw [h1d]
    exact getValue_of_zeroStep P1 now2 0 hP1ev hP1mn hP1mx h2
  have h2r : st2.records A =
      some [⟨B, 0, 0, (st.dests B).param.initialValue⟩, ⟨B, 0, 0, (0 : ℝ)⟩] := by
    rw [e2]
    simp [liveRecords, h1r, hval2]
  have h2d : st2.dests B = { st1.dests B with param := P2 } := by
    rw [e2]
    exact Function.update_same _ _ _
  have hP2ev : P2.events = [⟨0, (0 : ℝ), .SetValue⟩] := by
    show insertEvent (Param.cancelScheduledValues (st1.dests B).param 0).events
      ⟨0, (0 : ℝ), .SetValue⟩ = _
    rw [cancel0_of_zeroStep ((st1.dests B).param) 0 (by rw [h1d]; exact hP1ev)]
    rfl
  have hP2mn : P2.minValue = none := by
    show (st1.dests B).param.minValue = none
    rw [h1d]
    exact hP1mn
  have hP2mx : P2.maxValue = none := by
    show (st1.dests B).param.maxValue = none
    rw [h1d]
    exact hP1mx
  refine ⟨by rw [liveRecords, h2r]; rfl, ?_⟩
  have hk2 : (st2.dests B).kind = .signal true := by
    rw [h2d, h1d]
    exact hkind
  have hgd : disconnectGuard st2 (some B) = true := by
    show (st2.dests B).kind.isOverridable = true
    rw [hk2]
    rfl
  have hsel : selectRecords
      [⟨B, 0, 0, (st.dests B).param.initialValue⟩, ⟨B, 0, 0, (0 : ℝ)⟩]
      (some B) none none =
      [⟨B, 0, 0, (st.dests B).param.initialValue⟩, ⟨B, 0, 0, (0 : ℝ)⟩] := by
    simp [selectRecords, matchesRecord]
  have hdisc := disconnectSignal_ok st2 A (some B) none none _ h2r hgd
    (by rw [hsel]; exact fun hcon => by cases hcon)
  have hflag2 : (st2.dests B).kind.hasOverriddenFlag = true := by
    rw [hk2]
    rfl
  set r1 : ConnRecord := ⟨B, 0, 0, (st.dests B).param.initialValue⟩ with hr1def
  set r2 : ConnRecord := ⟨B, 0, 0, (0 : ℝ)⟩ with hr2def
  set st2' := restoreOne st2 r1 with hst2pr
  set st3' := restoreOne st2' r2 with hst3pr
  have h2'd : st2'.dests B =
      { st2.dests B with param :=
          (Param.setValueAtTime { (st2.dests B).param with overridden := false }
            (st.dests B).param.initialValue 0) } := by
    rw [hst2pr]
    unfold restoreOne
    simp only [hr1def, hflag2, if_true, Function.update_same]
  have hQ1ev :
      (Param.setValueAtTime { (st2.dests B).param with overridden := false }
        (st.dests B).param.initialValue 0).events =
      [⟨0, (st.dests B).param.initialValue, .SetValue⟩] := by
    show insertEvent ((st2.dests B).param).events
      ⟨0, (st.dests B).param.initialValue, .SetValue⟩ = _
    have hpe : (st2.dests B).param.events = [⟨0, (0 : ℝ), .SetValue⟩] := by
      rw [h2d]
      exact hP2ev
    rw [hpe]
    rfl
  have h2'flag : (st2'.dests B).kind.hasOverriddenFlag = true := by
    rw [h2'd]
    exact hflag2
  have h3'd : st3'.dests B =
      { st2'.dests B with param :=
          (Param.setValueAtTime { (st2'.dests B).param with overridden := false }
            (0 : ℝ) 0) } := by
    rw [hst3pr]
    unfold restoreOne
    simp only [hr2def, h2'flag, if_true, Function.update_same]
  have hQ2ev :
      (Param.setValueAtTime { (st2'.dests B).param with overridden := false }
        (0 : ℝ) 0).events = [⟨0, (0 : ℝ), .SetValue⟩] := by
    show insertEvent ((st2'.dests B).param).events ⟨0, (0 : ℝ), .SetValue⟩ = _
    have hpe : (st2'.dests B).param.events =
        [⟨0, (st.dests B).param.initialValue, .SetValue⟩] := by
      rw [h2'd]
      exact hQ1ev
    rw [hpe]
    rfl
  have hQ2mn :
      (Param.setValueAtTime { (st2'.dests B).param with overridden := false }
        (0 : ℝ) 0).minValue = none := by
    show (st2'.dests B).param.minValue = none
    rw [h2'd]
    show (st2.dests B).param.minValue = none
    rw [h2d]
    exact hP2mn
  have hQ2mx :
      (Param.setValueAtTime { (st2'.dests B).param with overridden := false }
        (0 : ℝ) 0).maxValue = none := by
    show (st2'.dests B).param.maxValue = none
    rw [h2'd]
    show (st2.dests B).param.maxValue = none
    rw [h2d]
    exact hP2mx
  have hfold : (selectRecords
      [⟨B, 0, 0, (st.dests B).param.initialValue⟩, ⟨B, 0, 0, (0 : ℝ)⟩]
      (some B) none none).foldl restoreOne st2 = st3' := by
    rw [hsel, hst3pr, hst2pr]
    rfl
  have hfinal : Param.getValue ((st3'.dests B).param) now3 = 0 := by
    apply getValue_of_zeroStep _ now3 0 ?_ ?_ ?_ h3
    · rw [h3'd]
      exact hQ2ev
    · rw [h3'd]
      exact hQ2mn
    · rw [h3'd]
      exact hQ2mx
  refine ⟨_, hdisc, ?_, ?_⟩
  · show Param.getValue
      (((selectRecords
        [⟨B, 0, 0, (st.dests B).param.initialValue⟩, ⟨B, 0, 0, (0 : ℝ)⟩]
        (some B) none none).foldl restoreOne st2).dests B).param now3 = 0
    rw [hfold]
    exact hfinal
  · show Param.getValue
      (((selectRecords
        [⟨B, 0, 0, (st.dests B).param.initialValue⟩, ⟨B, 0, 0, (0 : ℝ)⟩]
        (some B) none none).foldl restoreOne st2).dests B).param now3 ≠
      (st.dests B).param.initialValue
    rw [hfold, hfinal]
    exact fun h => hne h.symm

/-- Witness for C9: on a system of fresh signals at value 5, connecting
signal 0 to signal 1 twice leaves two records, the second snapshotting the
overridden value 0. -/
theorem double_connect_snapshots_overridden_value_witness :
    liveRecords (connectSignal (connectSignal freshSystem 0 1 none none 0) 0 1 none none 0) 0 =
      [⟨1, 0, 0, (5 : ℝ)⟩, ⟨1, 0, 0, (0 : ℝ)⟩] :=
  (double_connect_snapshots_overridden_value freshSystem 0 1 0 0 0 rfl rfl rfl rfl rfl
    (le_refl 0) (le_refl 0) (by show (5 : ℝ) ≠ 0; norm_num)).1

/-- Counting through the partition of a list by a boolean predicate. -/
theorem countP_filter_partition {α : Type} (l : List α) (p q : α → Bool) :
    l.countP p = (l.filter q).countP p + (l.filter (fun a => !(q a))).countP p := by
  induction l with
  | nil => rfl
  | cons a as ih =>
    by_cases hq : q a = true <;> by_cases hp : p a = true <;>
      simp [List.filter_cons, List.countP_cons, hq, hp, ih] <;> omega

/-- Restoring a record never touches the weak map of records. -/
theorem restoreOne_records (st : SystemState) (c : ConnRecord) :
    (restoreOne st c).records = st.records := rfl

/-- Restoring any list of records never touches the weak map of records. -/
theorem foldl_restoreOne_records (l : List ConnRecord) (st : SystemState) :
    (l.foldl restoreOne st).records = st.records := by
  induction l generalizing st with
  | nil => rfl
  | cons c cs ih => rw [List.foldl_cons, ih, restoreOne_records]

/-- Restoring a record preserves the runtime class of every destination. -/
theorem restoreOne_kind (st : SystemState) (c : ConnRecord) (d : ℕ) :
    ((restoreOne st c).dests d).kind = (st.dests d).kind := by
  by_cases hd : d = c.destination
  · subst hd
    simp [restoreOne, Function.update_same]
  · simp [restoreOne, Function.update_noteq hd]

/-- Restoring a record leaves every other destination untouched. -/
theorem restoreOne_dests_other (st : SystemState) (c : ConnRecord) (d : ℕ)
    (hd : d ≠ c.destination) :
    (restoreOne st c).dests d = st.dests d := by
  simp [restoreOne, Function.update_noteq hd]

/-- Restoring a record of a destination whose flag is already clear keeps
it clear. -/
theorem restoreOne_overridden_self_false (st : SystemState) (c : ConnRecord)
    (h : ((st.dests c.destination).param).overridden = false) :
    (((restoreOne st c).dests c.destination).param).overridden = false := by
  by_cases hf : (st.dests c.destination).kind.hasOverriddenFlag = true
  · simp [restoreOne, Function.update_same, hf, Param.setValueAtTime]
  · simp [restoreOne, Function.update_same, hf, Param.setValueAtTime, h]

/-- Restoring a record of a flag-carrying destination clears its flag. -/
theorem restoreOne_overridden_self_cleared (st : SystemState) (c : ConnRecord)
    (hf : (st.dests c.destination).kind.hasOverriddenFlag = true) :
    (((restoreOne st c).dests c.destination).param).overridden = false := by
  simp [restoreOne, Function.update_same, hf, Param.setValueAtTime]

/-- Restoring a list of records preserves the runtime class of every
destination. -/
theorem foldl_restoreOne_kind (l : List ConnRecord) (st : SystemState) (d : ℕ) :
    ((l.foldl restoreOne st).dests d).kind = (st.dests d).kind := by
  induction l generalizing st with
  | nil => rfl
  | cons c cs ih => rw [List.foldl_cons, ih, restoreOne_kind]

/-- A destination whose `overridden` flag is already clear keeps it clear
through any sequence of restores. -/
theorem foldl_restoreOne_overridden_false (l : List ConnRecord) (st : SystemState) (d : ℕ)
    (h : ((st.dests d).param).overridden = false) :
    (((l.foldl restoreOne st).dests d).param).overridden = false := by
  induction l generalizing st with
  | nil => exact h
  | cons c cs ih =>
    rw [List.foldl_cons]
    apply ih
    by_cases hd : d = c.destination
    · subst hd
      exact restoreOne_overridden_self_false st c h
    · rw [restoreOne_dests_other st c d hd]
      exact h

/-- Restoring a list containing a record of a flag-carrying destination
clears that destination's `overridden` flag. -/
theorem foldl_restoreOne_overridden_of_mem (l : List ConnRecord) (st : SystemState) (d : ℕ)
    (hflag : (st.dests d).kind.hasOverriddenFlag = true)
    (hmem : ∃ c ∈ l, c.destination = d) :
    (((l.foldl restoreOne st).dests d).param).overridden = false := by
  induction l generalizing st with
  | nil => obtain ⟨c, hc, _⟩ := hmem; cases hc
  | cons c cs ih =>
    rw [List.foldl_cons]
    by_cases hd : c.destination = d
    · apply foldl_restoreOne_overridden_false
      rw [← hd]
      exact restoreOne_overridden_self_cleared st c (by rw [hd]; exact hflag)
    · obtain ⟨c', hc', hcd'⟩ := hmem
      rcases List.mem_cons.mp hc' with h | h
      · subst h
        exact absurd hcd' hd
      · exact ih (restoreOne st c) (by rw [restoreOne_kind]; exact hflag) ⟨c', h, hcd'⟩

/-- Restoring records none of which target a destination leaves that
destination's `overridden` flag unchanged. -/
theorem foldl_restoreOne_overridden_of_not_mem (l : List ConnRecord) (st : SystemState) (d : ℕ)
    (hmem : ∀ c ∈ l, c.destination ≠ d) :
    (((l.foldl restoreOne st).dests d).param).overridden =
      ((st.dests d).param).overridden := by
  induction l generalizing st with
  | nil => rfl
  | cons c cs ih =>
    rw [List.foldl_cons, ih (restoreOne st c) (fun c' hc' => hmem c' (List.mem_cons_of_mem _ hc')),
      restoreOne_dests_other st c d (fun h => hmem c (List.mem_cons_self _ _) h.symm)]

/-- The number of live records of one source that target a destination. -/
def countD (st : SystemState) (sig d : ℕ) : ℕ :=
  (liveRecords st sig).countP (fun r => r.destination == d)

/-- A destination is targeted when some live connection record of some
source points at it. -/
def targeted (st : SystemState) (d : ℕ) : Prop :=
  ∃ s, ∃ r ∈ liveRecords st s, r.destination = d

/-- C3's invariant: every destination carrying an `overridden` flag has it
raised exactly when some live connection record targets it. -/
def FlagInv (st : SystemState) : Prop :=
  ∀ d : ℕ, (st.dests d).kind.hasOverriddenFlag = true →
    (((st.dests d).param).overridden = true ↔ targeted st d)

/-- The one-writer discipline of the simplified model: system-wide, at most
one live record targets any destination, and it belongs to a unique
source. -/
def OneWriter (st : SystemState) : Prop :=
  (∀ d s, countD st s d ≤ 1) ∧
  (∀ d s₁ s₂, 1 ≤ countD st s₁ d → 1 ≤ countD st s₂ d → s₁ = s₂)

/-- One operation of the connection manager. -/
inductive SigOp where
  | connect : (sig dest : ℕ) → (outputNum inputNum : Option ℕ) → (now : ℚ) → SigOp
  | disconnect : (sig : ℕ) → (destination : Option ℕ) →
      (outputNum inputNum : Option ℕ) → SigOp

/-- Execute one operation; a `disconnect` that throws leaves the state as
it was, because no mutation precedes the throw in the source. -/
noncomputable def stepOp (st : SystemState) : SigOp → SystemState
  | .connect sig dest o i now => connectSignal st sig dest o i now
  | .disconnect sig destination o i =>
    match disconnectSignal st sig destination o i with
    | .ok st' => st'
    | .error _ => st

/-- Run a sequence of connection-manager operations. -/
noncomputable def runOps (st : SystemState) (ops : List SigOp) : SystemState :=
  ops.foldl stepOp st

/-- An operation admissible in the one-writer model: a connect may only
target a destination not currently targeted by any live record. -/
def Allowed (st : SystemState) : SigOp → Prop
  | .connect _ dest _ _ _ => ¬ targeted st dest
  | .disconnect _ _ _ _ => True

/-- Every operation of the sequence is admissible in the state where it
executes. -/
def AllowedFrom (st : SystemState) : List SigOp → Prop
  | [] => True
  | op :: rest => Allowed st op ∧ AllowedFrom (stepOp st op) rest

/-- An untargeted destination has no counting record anywhere. -/
theorem countD_eq_zero_of_not_targeted (st : SystemState) (d : ℕ)
    (h : ¬ targeted st d) (s : ℕ) : countD st s d = 0 := by
  rw [countD, List.countP_eq_zero]
  intro r hr
  simp only [beq_iff_eq]
  exact fun hrd => h ⟨s, r, hr, hrd⟩

/-- A record in a source's live list witnesses a positive count. -/
theorem one_le_countD_of_mem (st : SystemState) (s d : ℕ) (r : ConnRecord)
    (hr : r ∈ liveRecords st s) (hrd : r.destination = d) :
    1 ≤ countD st s d := by
  rw [countD]
  refine Nat.succ_le_of_lt (List.countP_pos_iff.mpr ⟨r, hr, ?_⟩)
  simp [hrd]

/-- `connectSignal` on a non-overridable destination only logs the graph
connection. -/
theorem connectSignal_not_overridable (st : SystemState) (sig dest : ℕ)
    (o i : Option ℕ) (now : ℚ)
    (h : ¬ (st.dests dest).kind.isOverridable = true) :
    connectSignal st sig dest o i now =
      { st with graphOps := st.graphOps ++ [.connect sig dest o i] } := by
  simp [connectSignal, h]

/-- Closed form of `connectSignal` on any overridable destination: the
`overridden` flag is raised exactly when the destination carries one. -/
theorem connectSignal_overridable_general (st : SystemState) (sig dest : ℕ)
    (o i : Option ℕ) (now : ℚ)
    (h : (st.dests dest).kind.isOverridable = true) :
    connectSignal st sig dest o i now =
      { dests := Function.update st.dests dest
          { st.dests dest with param :=
              (if (st.dests dest).kind.hasOverriddenFlag = true then
                { Param.setValueAtTime
                    (Param.cancelScheduledValues (st.dests dest).param 0) 0 0 with
                    overridden := true }
              else Param.setValueAtTime
                (Param.cancelScheduledValues (st.dests dest).param 0) 0 0) }
        records := Function.update st.records sig
          (some (liveRecords st sig ++
            [⟨dest, o.getD 0, i.getD 0, Param.getValue (st.dests dest).param now⟩]))
        graphOps := st.graphOps ++ [.connect sig dest o i] } := by
  simp only [connectSignal, h, if_true]

/-- After an overriding connect, only the source's record list changed: it
gained one record targeting the destination. -/
theorem liveRecords_connectSignal_overridable (st : SystemState) (sig dest : ℕ)
    (o i : Option ℕ) (now : ℚ) (h : (st.dests dest).kind.isOverridable = true) (s : ℕ) :
    liveRecords (connectSignal st sig dest o i now) s =
      if s = sig then
        liveRecords st sig ++
          [⟨dest, o.getD 0, i.getD 0, Param.getValue (st.dests dest).param now⟩]
      else liveRecords st s := by
  rw [connectSignal_overridable_general st sig dest o i now h]
  by_cases hs : s = sig
  · subst hs
    simp [liveRecords, Function.update_same]
  · simp [liveRecords, hs, Function.update_noteq hs]

/-- After an overriding connect, every other destination is unchanged. -/
theorem dests_connectSignal_overridable_other (st : SystemState) (sig dest : ℕ)
    (o i : Option ℕ) (now : ℚ) (h : (st.dests dest).kind.isOverridable = true)
    (d : ℕ) (hd : d ≠ dest) :
    (connectSignal st sig dest o i now).dests d = st.dests d := by
  rw [connectSignal_overridable_general st sig dest o i now h]
  exact Function.update_noteq hd _ _

/-- After an overriding connect, the destination keeps its class and, when
it carries an `overridden` flag, that flag is raised. -/
theorem dests_connectSignal_overridable_self (st : SystemState) (sig dest : ℕ)
    (o i : Option ℕ) (now : ℚ) (h : (st.dests dest).kind.isOverridable = true) :
    ((connectSignal st sig dest o i now).dests dest).kind = (st.dests dest).kind ∧
    ((st.dests dest).kind.hasOverriddenFlag = true →
      (((connectSignal st sig dest o i now).dests dest).param).overridden = true) := by
  rw [connectSignal_overridable_general st sig dest o i now h]
  constructor
  · simp only [Function.update_same]
  · intro hfl
    simp [Function.update_same, hfl]

/-- A connect admissible in the one-writer model preserves the override
invariant and the one-writer discipline. -/
theorem connectSignal_preserves (st : SystemState) (sig dest : ℕ) (o i : Option ℕ)
    (now : ℚ) (hAll : ¬ targeted st dest) (hFlag : FlagInv st) (hOne : OneWriter st) :
    FlagInv (connectSignal st sig dest o i now) ∧
    OneWriter (connectSignal st sig dest o i now) := by
  by_cases hov : (st.dests dest).kind.isOverridable = true
  case neg =>
    rw [connectSignal_not_overridable st sig dest o i now hov]
    exact ⟨hFlag, hOne⟩
  case pos =>
    have hrecs := liveRecords_connectSignal_overridable st sig dest o i now hov
    have hcountD : ∀ s d, countD (connectSignal st sig dest o i now) s d =
        countD st s d + (if s = sig ∧ d = dest then 1 else 0) := by
      intro s d
      rw [countD, countD, hrecs s]
      by_cases hs : s = sig
      · subst hs
        rw [if_pos rfl, List.countP_append]
        by_cases hd : d = dest
        · subst hd
          simp
        · have : (fun r : ConnRecord => r.destination == d)
              ⟨dest, o.getD 0, i.getD 0, Param.getValue (st.dests dest).param now⟩ = false := by
            simp only [beq_eq_false_iff_ne, ne_eq]
            exact fun hcon => hd hcon.symm
          simp [this, hd]
      · simp [hs]
    have hmemlive : ∀ s (r : ConnRecord) (d : ℕ), d ≠ dest →
        (r ∈ liveRecords (connectSignal st sig dest o i now) s ∧ r.destination = d ↔
          r ∈ liveRecords st s ∧ r.destination = d) := by
      intro s r d hd
      rw [hrecs s]
      by_cases hs : s = sig
      · subst hs
        rw [if_pos rfl]
        constructor
        · rintro ⟨hr, hrd⟩
          rcases List.mem_append.mp hr with h | h
          · exact ⟨h, hrd⟩
          · rw [List.mem_singleton] at h
            subst h
            have hdd : dest = d := hrd
            exact absurd hdd.symm hd
        · rintro ⟨hr, hrd⟩
          exact ⟨List.mem_append_left _ hr, hrd⟩
      · rw [if_neg hs]
    refine ⟨?_, ?_, ?_⟩
    · intro d hfd
      by_cases hd : d = dest
      · subst hd
        have hself := dests_connectSignal_overridable_self st sig d o i now hov
        have hfl : (st.dests d).kind.hasOverriddenFlag = true := by
          rw [← hself.1]
          exact hfd
        rw [hself.2 hfl]
        simp only [true_iff]
        refine ⟨sig, ⟨d, o.getD 0, i.getD 0, Param.getValue (st.dests d).param now⟩, ?_, rfl⟩
        rw [hrecs sig, if_pos rfl]
        exact List.mem_append_right _ (List.mem_singleton.mpr rfl)
      · rw [dests_connectSignal_overridable_other st sig dest o i now hov d hd] at hfd ⊢
        rw [hFlag d hfd]
        constructor
        · rintro ⟨s, r, hr, hrd⟩
          exact ⟨s, r, ((hmemlive s r d hd).mpr ⟨hr, hrd⟩)⟩
        · rintro ⟨s, r, hr, hrd⟩
          exact ⟨s, r, ((hmemlive s r d hd).mp ⟨hr, hrd⟩)⟩
    · intro d s
      rw [hcountD s d]
      by_cases hsd : s = sig ∧ d = dest
      · rw [if_pos hsd]
        have : countD st s d = 0 := by
          rw [hsd.2]
          exact countD_eq_zero_of_not_targeted st dest hAll s
        omega
      · rw [if_neg hsd]
        have := hOne.1 d s
        omega
    · intro d s₁ s₂ h₁ h₂
      rw [hcountD s₁ d] at h₁
      rw [hcountD s₂ d] at h₂
      by_cases hd : d = dest
      · subst hd
        have hzero : ∀ s, countD st s d = 0 :=
          countD_eq_zero_of_not_targeted st d hAll
        by_cases hs₁ : s₁ = sig
        · by_cases hs₂ : s₂ = sig
          · rw [hs₁, hs₂]
          · rw [hzero s₂, if_neg (fun hcon => hs₂ hcon.1)] at h₂
            omega
        · rw [hzero s₁, if_neg (fun hcon => hs₁ hcon.1)] at h₁
          omega
      · rw [if_neg (fun hcon => hd hcon.2)] at h₁
        rw [if_neg (fun hcon => hd hcon.2)] at h₂
        exact hOne.2 d s₁ s₂ (by omega) (by omega)

/-- Selected records come from the stored list. -/
theorem selectRecords_subset (recs : List ConnRecord) (destination : Option ℕ)
    (o i : Option ℕ) (c : ConnRecord) (hc : c ∈ selectRecords recs destination o i) :
    c ∈ recs := by
  cases destination with
  | none => exact hc
  | some d => exact List.mem_of_mem_filter hc

/-- Remaining records come from the stored list. -/
theorem remainingRecords_subset (recs : List ConnRecord) (destination : Option ℕ)
    (o i : Option ℕ) (c : ConnRecord) (hc : c ∈ remainingRecords recs destination o i) :
    c ∈ recs := by
  cases destination with
  | none => cases hc
  | some d => exact List.mem_of_mem_filter hc

/-- A matching record points at the destination it was matched against. -/
theorem matchesRecord_destination (c : ConnRecord) (d : ℕ) (o i : Option ℕ)
    (h : matchesRecord c d o i = true) : c.destination = d := by
  simp only [matchesRecord, Bool.and_eq_true, beq_iff_eq] at h
  exact h.1.1

/-- The successful-disconnect state preserves the override invariant and
the one-writer discipline. -/
theorem disconnect_state_preserves (st : SystemState) (sig : ℕ)
    (destination : Option ℕ) (o i : Option ℕ) (recs : List ConnRecord)
    (hrec : st.records sig = some recs)
    (hFlag : FlagInv st) (hOne : OneWriter st) :
    FlagInv
      { dests := ((selectRecords recs destination o i).foldl restoreOne st).dests
        records := Function.update
          ((selectRecords recs destination o i).foldl restoreOne st).records sig
          (some (remainingRecords recs destination o i))
        graphOps := st.graphOps ++ [.disconnect sig destination o i] } ∧
    OneWriter
      { dests := ((selectRecords recs destination o i).foldl restoreOne st).dests
        records := Function.update
          ((selectRecords recs destination o i).foldl restoreOne st).records sig
          (some (remainingRecords recs destination o i))
        graphOps := st.graphOps ++ [.disconnect sig destination o i] } := by
  have hlivesig : liveRecords st sig = recs := by
    rw [liveRecords, hrec]
    rfl
  set conns := selectRecords recs destination o i with hconns
  set R := remainingRecords recs destination o i with hRdef
  set F := conns.foldl restoreOne st with hF
  set ST : SystemState :=
    { dests := F.dests
      records := Function.update F.records sig (some R)
      graphOps := st.graphOps ++ [.disconnect sig destination o i] } with hST
  have hlive : ∀ s, liveRecords ST s = if s = sig then R else liveRecords st s := by
    intro s
    by_cases hs : s = sig
    · rw [if_pos hs, hs]
      show (Function.update F.records sig (some R) sig).getD [] = R
      rw [Function.update_same]
      rfl
    · rw [if_neg hs]
      show (Function.update F.records sig (some R) s).getD [] = liveRecords st s
      rw [Function.update_noteq hs, hF, foldl_restoreOne_records]
      rfl
  have hSTdests : ∀ d, ST.dests d = F.dests d := fun d => rfl
  constructor
  · intro d hfd
    have hfd' : (st.dests d).kind.hasOverriddenFlag = true := by
      have h0 : ((F.dests d).kind).hasOverriddenFlag = true := hfd
      rw [hF, foldl_restoreOne_kind] at h0
      exact h0
    show ((F.dests d).param).overridden = true ↔ targeted ST d
    by_cases hT : ∃ c ∈ conns, c.destination = d
    · have hov0 : ((F.dests d).param).overridden = false := by
        rw [hF]
        exact foldl_restoreOne_overridden_of_mem conns st d hfd' hT
      refine iff_of_false (by rw [hov0]; simp) ?_
      rintro ⟨s, r, hr, hrd⟩
      rw [hlive s] at hr
      obtain ⟨c, hc, hcd⟩ := hT
      have hcount_sig : 1 ≤ countD st sig d :=
        one_le_countD_of_mem st sig d c
          (by rw [hlivesig]; exact selectRecords_subset recs destination o i c hc) hcd
      by_cases hs : s = sig
      · rw [if_pos hs] at hr
        cases destination with
        | none =>
          rw [hRdef] at hr
          cases hr
        | some d₀ =>
          have hc' : c ∈ recs.filter (fun x => matchesRecord x d₀ o i) := hc
          have hcd₀ : c.destination = d₀ :=
            matchesRecord_destination c d₀ o i (List.mem_filter.mp hc').2
          have hd₀ : d₀ = d := by rw [← hcd, hcd₀]
          subst hd₀
          have hr' : r ∈ recs.filter (fun x => !(matchesRecord x d₀ o i)) := hr
          have h2 : 2 ≤ countD st sig d₀ := by
            rw [countD, hlivesig,
              countP_filter_partition recs (fun x => x.destination == d₀)
                (fun x => matchesRecord x d₀ o i)]
            have hc1 : 1 ≤ (recs.filter (fun x => matchesRecord x d₀ o i)).countP
                (fun x => x.destination == d₀) :=
              Nat.succ_le_of_lt (List.countP_pos_iff.mpr ⟨c, hc', by simp [hcd]⟩)
            have hr1 : 1 ≤ (recs.filter (fun x => !(matchesRecord x d₀ o i))).countP
                (fun x => x.destination == d₀) :=
              Nat.succ_le_of_lt (List.countP_pos_iff.mpr ⟨r, hr', by simp [hrd]⟩)
            omega
          have := hOne.1 d₀ sig
          omega
      · rw [if_neg hs] at hr
        exact hs (hOne.2 d s sig (one_le_countD_of_mem st s d r hr hrd) hcount_sig)
    · have hov : ((F.dests d).param).overridden = ((st.dests d).param).overridden := by
        rw [hF]
        exact foldl_restoreOne_overridden_of_not_mem conns st d
          (fun c hc hcd => hT ⟨c, hc, hcd⟩)
      rw [hov, hFlag d hfd']
      constructor
      · rintro ⟨s, r, hr, hrd⟩
        refine ⟨s, r, ?_, hrd⟩
        rw [hlive s]
        by_cases hs : s = sig
        · rw [if_pos hs]
          rw [hs, hlivesig] at hr
          cases destination with
          | none => exact absurd ⟨r, hr, hrd⟩ hT
          | some d₀ =>
            by_cases hm : matchesRecord r d₀ o i = true
            · have : r ∈ recs.filter (fun x => matchesRecord x d₀ o i) :=
                List.mem_filter.mpr ⟨hr, hm⟩
              exact absurd ⟨r, this, hrd⟩ hT
            · exact List.mem_filter.mpr ⟨hr, by simp [hm]⟩
        · rw [if_neg hs]
          exact hr
      · rintro ⟨s, r, hr, hrd⟩
        rw [hlive s] at hr
        by_cases hs : s = sig
        · rw [if_pos hs] at hr
          exact ⟨sig, r, by
            rw [hlivesig]
            exact remainingRecords_subset recs destination o i r hr, hrd⟩
        · rw [if_neg hs] at hr
          exact ⟨s, r, hr, hrd⟩
  · have hcount : ∀ s d, countD ST s d ≤ countD st s d := by
      intro s d
      rw [countD, countD, hlive s]
      by_cases hs : s = sig
      · rw [if_pos hs, hs, hlivesig]
        cases destination with
        | none => exact Nat.zero_le _
        | some d₀ => exact List.Sublist.countP_le _ (List.filter_sublist _)
      · rw [if_neg hs]
    exact ⟨fun d s => le_trans (hcount s d) (hOne.1 d s),
      fun d s₁ s₂ h₁ h₂ =>
        hOne.2 d s₁ s₂ (le_trans h₁ (hcount s₁ d)) (le_trans h₂ (hcount s₂ d))⟩

/-- A disconnect (throwing or not) preserves the override invariant and
the one-writer discipline. -/
theorem disconnectSignal_preserves (st : SystemState) (sig : ℕ)
    (destination : Option ℕ) (o i : Option ℕ)
    (hFlag : FlagInv st) (hOne : OneWriter st) :
    FlagInv (stepOp st (.disconnect sig destination o i)) ∧
    OneWriter (stepOp st (.disconnect sig destination o i)) := by
  by_cases hg : disconnectGuard st destination = true
  case neg =>
    have hres : disconnectSignal st sig destination o i =
        .ok { st with graphOps := st.graphOps ++ [.disconnect sig destination o i] } := by
      simp [disconnectSignal, hg]
    simp only [stepOp, hres]
    exact ⟨hFlag, hOne⟩
  case pos =>
    rcases hrec : st.records sig with _ | recs
    · have hres : disconnectSignal st sig destination o i =
          .ok { st with graphOps := st.graphOps ++ [.disconnect sig destination o i] } := by
        simp [disconnectSignal, hg, hrec]
      simp only [stepOp, hres]
      exact ⟨hFlag, hOne⟩
    · by_cases hsel : selectRecords recs destination o i = []
      · have herr : disconnectSignal st sig destination o i = .error .notConnected :=
          (disconnectSignal_error_iff st sig destination o i).mpr ⟨hg, recs, hrec, hsel⟩
        simp only [stepOp, herr]
        exact ⟨hFlag, hOne⟩
      · have hok := disconnectSignal_ok st sig destination o i recs hrec hg hsel
        simp only [stepOp, hok]
        exact disconnect_state_preserves st sig destination o i recs hrec hFlag hOne

/-- Any admissible operation preserves the override invariant and the
one-writer discipline. -/
theorem stepOp_preserves (st : SystemState) (op : SigOp) (hop : Allowed st op)
    (hFlag : FlagInv st) (hOne : OneWriter st) :
    FlagInv (stepOp st op) ∧ OneWriter (stepOp st op) := by
  cases op with
  | connect sig dest o i now =>
    exact connectSignal_preserves st sig dest o i now hop hFlag hOne
  | disconnect sig destination o i =>
    exact disconnectSignal_preserves st sig destination o i hFlag hOne

/-- C3: over every admissible sequence of connect and disconnect
operations in the one-writer model, at each point a flag-carrying
destination's `overridden` flag is true exactly when at least one live
connection record held by some source signal targets it (and the
one-writer discipline itself is maintained). -/
theorem override_flag_invariant (st : SystemState) (ops : List SigOp)
    (hFlag : FlagInv st) (hOne : OneWriter st) (hops : AllowedFrom st ops) :
    FlagInv (runOps st ops) ∧ OneWriter (runOps st ops) := by
  induction ops generalizing st with
  | nil => exact ⟨hFlag, hOne⟩
  | cons op rest ih =>
    obtain ⟨hop, hrest⟩ := hops
    have hstep := stepOp_preserves st op hop hFlag hOne
    exact ih (stepOp st op) hstep.1 hstep.2 hrest

/-- Witness for C3: starting from a fresh system, connecting signal 0 to
signal 1 yields a state satisfying the invariant. -/
theorem override_flag_invariant_witness :
    FlagInv (runOps freshSystem [.connect 0 1 none none 0]) ∧
    OneWriter (runOps freshSystem [.connect 0 1 none none 0]) := by
  apply override_flag_invariant freshSystem [.connect 0 1 none none 0]
  · intro d _
    simp only [freshSystem]
    constructor
    · intro hcon
      cases hcon
    · rintro ⟨s, r, hr, _⟩
      simp [liveRecords, freshSystem] at hr
  · constructor
    · intro d s
      simp [countD, liveRecords, freshSystem]
    · intro d s₁ s₂ h₁ _
      simp [countD, liveRecords, freshSystem] at h₁
  · refine ⟨?_, trivial⟩
    rintro ⟨s, r, hr, _⟩
    simp [liveRecords, freshSystem] at hr
